import Mathlib

/-!
Shallow embedding of the translation-set reconciliation core of the
next-intl-hlpr extension (src/extension.ts, src/services/translationService.ts,
src/services/configService.ts and the DiagnosticService revisions), together
with theorems settling the frozen claims about it.

Strings from the JavaScript source are modelled as `List Char`; JavaScript
objects produced by `JSON.parse` on translation files are modelled by the
recursive `Tree` type (the source's `Translation` interface: every property is
either a string or a nested translation object).  Fallible operations
(JSON parsing, directory enumeration) are modelled by `Except`/`Option`
parameters supplied by the environment.
-/

namespace NextIntl

/-- JavaScript regex `\s` / `String.prototype.trim` whitespace, restricted to
the ASCII whitespace characters. -/
def isJsWs (c : Char) : Bool :=
  c = ' ' || c = '\t' || c = '\n' || c = '\r' || c = '\x0b' || c = '\x0c'

/-- JavaScript `String.prototype.trim`: drop whitespace from both ends. -/
def trimStr (s : List Char) : List Char :=
  ((s.dropWhile isJsWs).reverse.dropWhile isJsWs).reverse

/-- JavaScript `key.split('.')`: splitting on `'.'`; the result is never empty
(`''.split('.')` is `['']`). -/
def splitOnDot : List Char → List (List Char)
  | [] => [[]]
  | c :: rest =>
    if c = '.' then [] :: splitOnDot rest
    else
      match splitOnDot rest with
      | [] => [[c]]
      | s :: ss => (c :: s) :: ss

/-- JavaScript `parts.join('.')`. -/
def joinDot : List (List Char) → List Char
  | [] => []
  | [s] => s
  | s :: rest => s ++ '.' :: joinDot rest

/-- The `Translation` interface of the source: a JSON translation value is a
string leaf or an object mapping key segments to translation values (object
key enumeration order is the list order). -/
inductive Tree where
  | leaf (s : List Char)
  | node (entries : List (List Char × Tree))

instance : Inhabited Tree := ⟨Tree.node []⟩

/-- JavaScript property access `obj[part]` guarded by `part in obj`
(object keys are unique, so first match is the match); also models
`Map.prototype.get` on an insertion-ordered map. -/
def alookup {α : Type} : List (List Char × α) → List Char → Option α
  | [], _ => none
  | (k, v) :: rest, key => if k = key then some v else alookup rest key

/-- `{}`: the empty translation object. -/
def emptyTree : Tree := .node []

/-- `const fullKey = prefix ? `prefix.key` : key` — the empty prefix is falsy. -/
def fullKeyOf (pfx key : List Char) : List Char :=
  if pfx = [] then key else pfx ++ '.' :: key

mutual

/-- `getAllKeys(obj, prefix)` from src/extension.ts lines 319-330 (identical in
TranslationService.getAllKeys): flatten a translation object into dotted key
paths, emitting a path only for a string leaf whose trimmed value is non-empty,
and recursing into nested objects. -/
def getAllKeys : Tree → List Char → List (List Char)
  | .leaf _, _ => []
  | .node es, pfx => getAllKeysEntries es pfx

/-- The `for (const key in obj)` loop body of `getAllKeys`. -/
def getAllKeysEntries : List (List Char × Tree) → List Char → List (List Char)
  | [], _ => []
  | (key, v) :: rest, pfx =>
    (match v with
     | .leaf s => if (trimStr s).isEmpty then [] else [fullKeyOf pfx key]
     | .node es2 => getAllKeys (.node es2) (fullKeyOf pfx key))
    ++ getAllKeysEntries rest pfx

end

mutual

/-- Instrumented variant of `getAllKeys` that also records each emitted leaf's
string value, used to state what `getAllKeys` emits; its projection to first
components is proved equal to `getAllKeys`. -/
def getAllKV : Tree → List Char → List (List Char × List Char)
  | .leaf _, _ => []
  | .node es, pfx => getAllKVEntries es pfx

/-- Loop body of `getAllKV`. -/
def getAllKVEntries : List (List Char × Tree) → List Char → List (List Char × List Char)
  | [], _ => []
  | (key, v) :: rest, pfx =>
    (match v with
     | .leaf s => if (trimStr s).isEmpty then [] else [(fullKeyOf pfx key, s)]
     | .node es2 => getAllKV (.node es2) (fullKeyOf pfx key))
    ++ getAllKVEntries rest pfx

end

/-- The walk of `hasKey`'s `for (const part of parts)` loop: step into the
object along the given segments, failing when the current value is a string or
lacks the segment. -/
def walkParts : Tree → List (List Char) → Option Tree
  | t, [] => some t
  | .leaf _, _ :: _ => none
  | .node es, p :: ps =>
    match alookup es p with
    | some t => walkParts t ps
    | none => none

/-- `hasKey(obj, key)` unrolled on the already-split parts: walk the parts and
finally require a string whose trimmed value is non-empty. -/
def hasKeyParts : Tree → List (List Char) → Bool
  | .leaf s, [] => !(trimStr s).isEmpty
  | .node _, [] => false
  | .leaf _, _ :: _ => false
  | .node es, p :: ps =>
    match alookup es p with
    | some t => hasKeyParts t ps
    | none => false

/-- `hasKey(obj, key)` from src/extension.ts lines 364-374 (identical in
TranslationService.hasKey). -/
def hasKey (t : Tree) (k : List Char) : Bool :=
  hasKeyParts t (splitOnDot k)

/-- A `TranslationFamily`: the `Map<string, Translation>` of one pass, in
insertion order. -/
abbrev Family := List (List Char × Tree)

/-- `allKeys.add(key)` on a JavaScript `Set`: insertion order, duplicates
ignored. -/
def insertUnique (a : List (List Char)) (k : List Char) : List (List Char) :=
  if k ∈ a then a else a ++ [k]

/-- The "collect all unique keys" loop of `findMissingTranslations`: the union
(as an insertion-ordered set) of every locale's flattened key list. -/
def collectAllKeys (family : Family) : List (List Char) :=
  family.foldl (fun acc lt => (getAllKeys lt.2 []).foldl insertUnique acc) []

/-- The inner loop of `findMissingTranslations`: the languages (in family
order) whose translation lacks the key per `hasKey`
(`translations.get(lang)!` never misses, modelled by a default). -/
def missingLangsFor (family : Family) (k : List Char) : List (List Char) :=
  (family.map Prod.fst).filter
    (fun lang => !hasKey ((alookup family lang).getD emptyTree) k)

/-- `findMissingTranslations(translations)` from src/extension.ts lines 333-361
(identical in TranslationService.findMissingTranslations): for each key of the
union, record the languages lacking it, keeping only keys missing somewhere. -/
def findMissingTranslations (family : Family) : List (List Char × List (List Char)) :=
  (collectAllKeys family).filterMap (fun k =>
    let missingLangs := missingLangsFor family k
    if missingLangs.isEmpty then none else some (k, missingLangs))

/-! Key locator (DiagnosticService.findKeyRange).  The source builds the regex
`"lastKey"\s*:` and returns the first match's `[index, index + length)` as a
range; we model the regex literally (key segments are ordinary text, not regex
metacharacters) over character offsets, which is what `document.positionAt`
receives. -/

/-- A source-text range, as the pair of character offsets
`positionAt(match.index)` / `positionAt(match.index + match[0].length)`. -/
structure Range where
  start : Nat
  stop : Nat
deriving DecidableEq

/-- Match `\s*:` at the front of the text: the length consumed (a run of
whitespace then a colon), or failure. -/
def wsColonLen : List Char → Option Nat
  | [] => none
  | c :: rest =>
    if c = ':' then some 1
    else if isJsWs c then (wsColonLen rest).map (· + 1)
    else none

/-- Strip an exact leading pattern from the text, returning the rest. -/
def stripLeading : List Char → List Char → Option (List Char)
  | [], t => some t
  | _ :: _, [] => none
  | p :: ps, c :: cs => if p = c then stripLeading ps cs else none

/-- Match the regex `"lastKey"\s*:` at the front of the text, returning the
matched length `match[0].length`. -/
def matchKeyAt (lastKey : List Char) (t : List Char) : Option Nat :=
  match stripLeading ('"' :: lastKey ++ ['"']) t with
  | none => none
  | some rest =>
    match wsColonLen rest with
    | none => none
    | some n => some (lastKey.length + 2 + n)

/-- The regex engine's left-to-right scan: the first position (and matched
length) at which `"lastKey"\s*:` matches.  The pattern starts with a quote, so
it never matches in empty text (`matchKeyAt lastKey [] = none` by definition)
and the scan can stop there. -/
def findMatchFrom (lastKey : List Char) : List Char → Nat → Option (Nat × Nat)
  | [], _ => none
  | c :: rest, i =>
    match matchKeyAt lastKey (c :: rest) with
    | some len => some (i, len)
    | none => findMatchFrom lastKey rest (i + 1)

/-- `keyParts[keyParts.length - 1]`: the last segment of a dotted path
(`split('.')` is never empty, so the default is irrelevant). -/
def lastSegment (k : List Char) : List Char :=
  (splitOnDot k).getLastD []

/-- `DiagnosticService.findKeyRange(document, key)`: search the whole document
text for the first occurrence of the path's last segment, quoted and followed
by (whitespace and) a colon, and return `[match.index, match.index +
match[0].length)`; `none` when there is no match. -/
def findKeyRange (text : List Char) (key : List Char) : Option Range :=
  match findMatchFrom (lastSegment key) text 0 with
  | some (i, len) => some ⟨i, i + len⟩
  | none => none

/-! Report builder pieces. -/

/-- `sep.join`-style interleaving used by `Array.from(set).join(', ')`. -/
def joinWith (sep : List Char) : List (List Char) → List Char
  | [] => []
  | [x] => x
  | x :: rest => x ++ sep ++ joinWith sep rest

/-- `DiagnosticService.createMissingTranslationMessage(key, missingLocales)`. -/
def createMissingTranslationMessage (key : List Char) (locales : List (List Char)) :
    List Char :=
  "Missing translations for key \"".data ++ key ++ "\" in:\n".data ++
    joinWith ", ".data locales

/-- A diagnostic: a range plus a message (severity is always Warning and the
source tag always the fixed tool name, so neither is modelled as a field). -/
structure Diagnostic where
  range : Range
  message : List Char
deriving DecidableEq

/-- `DiagnosticService.addMissingTranslationsDiagnostics`: one annotation per
entry of `missingTranslationsByKey` whose key the locator can place; entries
with no range contribute nothing. -/
def addMissingTranslationsDiagnostics (text : List Char)
    (missingByKey : List (List Char × List (List Char))) : List Diagnostic :=
  missingByKey.filterMap (fun kv =>
    match findKeyRange text kv.1 with
    | some range => some ⟨range, createMissingTranslationMessage kv.1 kv.2⟩
    | none => none)

/-- The per-key message of `updateDiagnostics` in src/extension.ts
(`Translation key "key" is missing in: ...`). -/
def missingInMessage (key : List Char) (langs : List (List Char)) : List Char :=
  "Translation key \"".data ++ key ++ "\" is missing in: ".data ++
    joinWith ", ".data langs

/-- The loop body of `updateDiagnostics` (src/extension.ts lines 517-529,
identical in the DiagnosticService revision): for one located key, emit a
diagnostic exactly when the key is in the missing map and the current
document's language is not among its missing languages. -/
def diagForKeyPosition (lang : List Char)
    (missing : List (List Char × List (List Char)))
    (kp : List Char × Range) : Option Diagnostic :=
  match alookup missing kp.1 with
  | some missingLangs =>
    if lang ∈ missingLangs then none
    else some ⟨kp.2, missingInMessage kp.1 missingLangs⟩
  | none => none

/-- The diagnostics list built by `updateDiagnostics` from the document's key
positions and the missing-translations map. -/
def updateDiagnosticsCore (lang : List Char) (keyPositions : List (List Char × Range))
    (missing : List (List Char × List (List Char))) : List Diagnostic :=
  keyPositions.filterMap (diagForKeyPosition lang missing)

/-! Mode resolver and translation loading. -/

/-- One entry of `fs.readdirSync` together with its `lstatSync().isDirectory()`
answer. -/
structure DirEntry where
  name : List Char
  isDir : Bool
deriving DecidableEq

/-- JavaScript `name.endsWith('.json')`. -/
def endsWithJson (name : List Char) : Bool :=
  ".json".data.isSuffixOf name

/-- `isSingleFileMode(translationsPath)` from src/extension.ts lines 203-235
(identical in ConfigService.isSingleFileMode): explicit overrides win; in auto
mode a readable directory chooses folder mode when it has any subdirectory and
otherwise returns whether any `.json` file exists; an unreadable directory
(`listing = none`, the catch branch) yields single-file mode. -/
def isSingleFileMode (mode : List Char) (listing : Option (List DirEntry)) : Bool :=
  if mode = "single-file".data then true
  else if mode = "folder".data then false
  else
    match listing with
    | none => true
    | some contents =>
      if contents.any (·.isDir) then false
      else contents.any (fun e => endsWithJson e.name)

/-- `loadSingleTranslation(filePath)` from src/extension.ts lines 238-253: the
result of `JSON.parse` on the file's content, or `{}` when reading/parsing
throws (the error is only logged and surfaced as a warning message). -/
def loadSingleTranslation (parseResult : Except (List Char) Tree) : Tree :=
  match parseResult with
  | .ok t => t
  | .error _ => emptyTree

/-- Node's `path.basename(file, '.json')` for a plain file name: strip the
suffix unless the whole name is the suffix. -/
def stripJsonSuffix (name : List Char) : List Char :=
  if name = ".json".data then name
  else if ".json".data.isSuffixOf name then name.take (name.length - 5)
  else name

/-- The single-file branch of `loadTranslations` (src/extension.ts lines
274-316): enumerate the root, keep `.json` files, and map each file's basename
to its (possibly failed and defaulted) parse result.  The directory listing
with per-file parse outcomes is the environment's input. -/
def loadTranslations (entries : List (List Char × Except (List Char) Tree)) : Family :=
  (entries.filter (fun e => endsWithJson e.1)).map
    (fun e => (stripJsonSuffix e.1, loadSingleTranslation e.2))

/-! Spec-side definitions used only to state claims. -/

/-- A key segment as the reconciliation round trip needs it: non-empty and
containing no dot. -/
def keyOk (k : List Char) : Bool :=
  !k.isEmpty && !k.contains '.'

mutual

/-- The spec's MessageTree invariant (unique key segments per mapping)
together with segment well-formedness (`keyOk`) at every node. -/
def treeOk : Tree → Bool
  | .leaf _ => true
  | .node es => entriesOk es

/-- `treeOk` on an entry list: every key well-formed and distinct from the
later keys, every subtree well-formed. -/
def entriesOk : List (List Char × Tree) → Bool
  | [] => true
  | (k, v) :: rest =>
    keyOk k && !(rest.map Prod.fst).contains k && treeOk v && entriesOk rest

end

/-! Concrete instances used by witnesses and counterexamples. -/

/-- Locale `en` of spec scenario 1. -/
def enTree : Tree :=
  .node [("greeting".data, .leaf "Hello".data),
         ("nested".data, .node [("message".data, .leaf "Hi".data)])]

/-- Locale `de` of spec scenario 1. -/
def deTree : Tree := .node [("greeting".data, .leaf "Hallo".data)]

/-- The family of spec scenario 1. -/
def scenario1Family : Family := [("en".data, enTree), ("de".data, deTree)]

/-- A directory listing whose `en.json` parses and whose `de.json` does not. -/
def parsedFiles : List (List Char × Except (List Char) Tree) :=
  [("en.json".data, .ok (.node [("a".data, .leaf "x".data)])),
   ("de.json".data, .error "Unexpected token".data)]

/-- The tree of `{"a": ""}`. -/
def emptyLeafTree : Tree := .node [("a".data, .leaf "".data)]

/-- The tree of `{"a": " "}` (whitespace-only leaf). -/
def blankLeafTree : Tree := .node [("a".data, .leaf " ".data)]

/-- A translations root holding a locale subdirectory and a loose json file. -/
def mixedListing : List DirEntry :=
  [⟨"en".data, true⟩, ⟨"extra.json".data, false⟩]

/-- A translations root with no subdirectory and no json file. -/
def nonJsonListing : List DirEntry := [⟨"readme.txt".data, false⟩]

/-- A translations root with only loose json files. -/
def jsonOnlyListing : List DirEntry :=
  [⟨"en.json".data, false⟩, ⟨"de.json".data, false⟩]

/-- The document text `{"b":{"title":"x"},"a":{"title":"y"}}`, holding two
keys named `title` under different parents. -/
def twoTitlesDoc : List Char :=
  "\x7b\"b\":\x7b\"title\":\"x\"\x7d,\"a\":\x7b\"title\":\"y\"\x7d\x7d".data

/-- The document text `{"a": "x"}`. -/
def singleKeyDoc : List Char := "\x7b\"a\": \"x\"\x7d".data

/-- The tree of `{"a.b": "x"}` (a dotted key segment). -/
def dottedKeyTree : Tree := .node [("a.b".data, .leaf "x".data)]

/-- The tree of `{"a": {"b": "x"}}`. -/
def nestedTree : Tree :=
  .node [("a".data, .node [("b".data, .leaf "x".data)])]

/-- A family in which locale `de` has an empty-string value for key `a`. -/
def blankValueFamily : Family :=
  [("en".data, .node [("a".data, .leaf "x".data)]),
   ("de".data, emptyLeafTree)]

/-! Helper lemmas. -/

theorem splitOnDot_ne_nil (k : List Char) : splitOnDot k ≠ [] := by
  cases k with
  | nil => simp [splitOnDot]
  | cons c rest =>
    simp only [splitOnDot]
    split
    · simp
    · split <;> simp

theorem joinDot_cons (s : List Char) (ss : List (List Char)) (h : ss ≠ []) :
    joinDot (s :: ss) = s ++ '.' :: joinDot ss := by
  cases ss with
  | nil => exact absurd rfl h
  | cons t ts => rfl

theorem splitOnDot_no_dot (x : List Char) (h : '.' ∉ x) : splitOnDot x = [x] := by
  induction x with
  | nil => rfl
  | cons c rest ih =>
    have hc : c ≠ '.' := fun hce => h (hce ▸ List.mem_cons_self c rest)
    have hrest : '.' ∉ rest := fun hm => h (List.mem_cons_of_mem c hm)
    simp only [splitOnDot, if_neg hc, ih hrest]

theorem splitOnDot_append_dot (x z : List Char) (h : '.' ∉ x) :
    splitOnDot (x ++ '.' :: z) = x :: splitOnDot z := by
  induction x with
  | nil => simp [splitOnDot]
  | cons c rest ih =>
    have hc : c ≠ '.' := fun hce => h (hce ▸ List.mem_cons_self c rest)
    have hrest : '.' ∉ rest := fun hm => h (List.mem_cons_of_mem c hm)
    simp only [List.cons_append, splitOnDot, if_neg hc, List.append_eq, ih hrest]

theorem splitOnDot_joinDot (segs : List (List Char)) (hne : segs ≠ [])
    (hdot : ∀ s ∈ segs, '.' ∉ s) : splitOnDot (joinDot segs) = segs := by
  induction segs with
  | nil => exact absurd rfl hne
  | cons s ss ih =>
    cases ss with
    | nil =>
      simpa [joinDot] using splitOnDot_no_dot s (hdot s (List.mem_cons_self s []))
    | cons t ts =>
      rw [joinDot_cons s (t :: ts) (by simp)]
      rw [splitOnDot_append_dot s _ (hdot s (by simp))]
      rw [ih (by simp) (fun u hu => hdot u (List.mem_cons_of_mem s hu))]

theorem alookup_mem {α : Type} {l : List (List Char × α)} {k : List Char} {v : α}
    (h : alookup l k = some v) : (k, v) ∈ l := by
  induction l with
  | nil => simp [alookup] at h
  | cons e rest ih =>
    obtain ⟨ek, ev⟩ := e
    simp only [alookup] at h
    split at h
    · rename_i heq
      cases h
      exact heq ▸ List.mem_cons_self _ _
    · exact List.mem_cons_of_mem _ (ih h)

theorem alookup_mem_keys {α : Type} {l : List (List Char × α)} {k : List Char} {v : α}
    (h : alookup l k = some v) : k ∈ l.map Prod.fst := by
  exact List.mem_map.2 ⟨(k, v), alookup_mem h, rfl⟩

theorem mem_insertUnique (a : List (List Char)) (k x : List Char) :
    x ∈ insertUnique a k ↔ x ∈ a ∨ x = k := by
  unfold insertUnique
  split
  · rename_i hk
    constructor
    · exact Or.inl
    · rintro (hx | rfl)
      · exact hx
      · exact hk
  · simp

theorem mem_foldl_insertUnique (ks : List (List Char)) (a : List (List Char))
    (x : List Char) : x ∈ ks.foldl insertUnique a ↔ x ∈ a ∨ x ∈ ks := by
  induction ks generalizing a with
  | nil => simp
  | cons k rest ih =>
    simp only [List.foldl_cons, ih, mem_insertUnique, List.mem_cons]
    tauto

theorem mem_collectAllKeys (family : Family) (k : List Char) :
    k ∈ collectAllKeys family ↔ ∃ lt ∈ family, k ∈ getAllKeys lt.2 [] := by
  have main : ∀ (fam : Family) (init : List (List Char)),
      k ∈ fam.foldl (fun acc lt => (getAllKeys lt.2 []).foldl insertUnique acc) init ↔
        k ∈ init ∨ ∃ lt ∈ fam, k ∈ getAllKeys lt.2 [] := by
    intro fam
    induction fam with
    | nil => simp
    | cons lt rest ih =>
      intro init
      simp only [List.foldl_cons, ih, mem_foldl_insertUnique, List.mem_cons]
      constructor
      · rintro (⟨h | h⟩ | ⟨u, hu, hk⟩)
        · exact Or.inl h
        · exact Or.inr ⟨lt, Or.inl rfl, h⟩
        · exact Or.inr ⟨u, Or.inr hu, hk⟩
      · rintro (h | ⟨u, hu | hu, hk⟩)
        · exact Or.inl (Or.inl h)
        · exact Or.inl (Or.inr (hu ▸ hk))
        · exact Or.inr ⟨u, hu, hk⟩
  simpa using main family []

theorem nodup_insertUnique (a : List (List Char)) (k : List Char) (h : a.Nodup) :
    (insertUnique a k).Nodup := by
  unfold insertUnique
  split
  · exact h
  · rename_i hk
    simpa [List.nodup_append] using ⟨h, hk⟩

theorem nodup_foldl_insertUnique (ks : List (List Char)) (a : List (List Char))
    (h : a.Nodup) : (ks.foldl insertUnique a).Nodup := by
  induction ks generalizing a with
  | nil => exact h
  | cons k rest ih => exact ih _ (nodup_insertUnique a k h)

theorem nodup_collectAllKeys (family : Family) : (collectAllKeys family).Nodup := by
  have main : ∀ (fam : Family) (init : List (List Char)), init.Nodup →
      (fam.foldl (fun acc lt => (getAllKeys lt.2 []).foldl insertUnique acc) init).Nodup := by
    intro fam
    induction fam with
    | nil => exact fun _ h => h
    | cons lt rest ih =>
      intro init h
      exact ih _ (nodup_foldl_insertUnique _ _ h)
  exact main family [] List.nodup_nil

theorem alookup_filterMap_keyed {β : Type} (g : List Char → Option β)
    (l : List (List Char)) (k : List Char) :
    alookup (l.filterMap (fun k' => (g k').map (fun v => (k', v)))) k =
      if k ∈ l then g k else none := by
  induction l with
  | nil => simp [alookup]
  | cons x rest ih =>
    cases hx : g x with
    | none =>
      rw [List.filterMap_cons_none (by simp [hx]), ih]
      by_cases hkx : k = x
      · subst hkx
        simp [hx]
      · simp [List.mem_cons, hkx]
    | some v =>
      simp only [List.filterMap_cons, hx, Option.map_some']
      simp only [alookup]
      by_cases hxk : x = k
      · subst hxk
        simp [hx, List.mem_cons]
      · rw [if_neg hxk, ih]
        simp [List.mem_cons, show ¬k = x from fun h => hxk h.symm]

theorem alookup_findMissing (family : Family) (k : List Char) :
    alookup (findMissingTranslations family) k =
      if k ∈ collectAllKeys family ∧ missingLangsFor family k ≠ []
      then some (missingLangsFor family k) else none := by
  have hrw : findMissingTranslations family =
      (collectAllKeys family).filterMap (fun k' =>
        ((fun k'' => if (missingLangsFor family k'').isEmpty then none
          else some (missingLangsFor family k'')) k').map (fun v => (k', v))) := by
    unfold findMissingTranslations
    congr 1
    funext k'
    by_cases h : (missingLangsFor family k').isEmpty <;> simp [h]
  rw [hrw, alookup_filterMap_keyed]
  by_cases hk : k ∈ collectAllKeys family
  · by_cases hml : missingLangsFor family k = [] <;> simp [hk, hml]
  · simp [hk]

theorem hasKey_emptyTree (k : List Char) : hasKey emptyTree k = false := by
  unfold hasKey
  cases h : splitOnDot k with
  | nil => exact absurd h (splitOnDot_ne_nil k)
  | cons p ps => simp [hasKeyParts, emptyTree, alookup]

theorem hasKeyParts_eq_walkParts : ∀ (t : Tree) (ps : List (List Char)),
    hasKeyParts t ps =
      (match walkParts t ps with
       | some (.leaf s) => !(trimStr s).isEmpty
       | _ => false)
  | .leaf _, [] => rfl
  | .node _, [] => rfl
  | .leaf _, _ :: _ => rfl
  | .node es, p :: ps => by
    simp only [hasKeyParts, walkParts]
    cases h : alookup es p with
    | none => rfl
    | some t' => exact hasKeyParts_eq_walkParts t' ps

theorem getAllKeys_eq_KV : ∀ (t : Tree) (pfx : List Char),
    getAllKeys t pfx = (getAllKV t pfx).map Prod.fst := by
  refine getAllKeys.induct
    (fun t pfx => getAllKeys t pfx = (getAllKV t pfx).map Prod.fst)
    (fun es pfx => getAllKeysEntries es pfx = (getAllKVEntries es pfx).map Prod.fst)
    (fun _ _ => rfl) (fun es pfx ih => ih) (fun _ => rfl) ?_
  intro key v rest pfx ihv ihrest
  cases v with
  | leaf s =>
    show (if (trimStr s).isEmpty then [] else [fullKeyOf pfx key])
        ++ getAllKeysEntries rest pfx =
      ((if (trimStr s).isEmpty then [] else [(fullKeyOf pfx key, s)])
        ++ getAllKVEntries rest pfx).map Prod.fst
    rw [List.map_append, ihrest]
    by_cases h : (trimStr s).isEmpty <;> simp [h]
  | node es2 =>
    show getAllKeys (.node es2) (fullKeyOf pfx key) ++ getAllKeysEntries rest pfx =
      (getAllKV (.node es2) (fullKeyOf pfx key) ++ getAllKVEntries rest pfx).map Prod.fst
    rw [List.map_append, ihrest, ihv]

theorem getAllKeysEntries_eq_KV (es : List (List Char × Tree)) (pfx : List Char) :
    getAllKeysEntries es pfx = (getAllKVEntries es pfx).map Prod.fst :=
  getAllKeys_eq_KV (.node es) pfx

theorem getAllKV_trim : ∀ (t : Tree) (pfx : List Char) (pv : List Char × List Char),
    pv ∈ getAllKV t pfx → (trimStr pv.2).isEmpty = false := by
  refine getAllKV.induct
    (fun t pfx => ∀ pv ∈ getAllKV t pfx, (trimStr pv.2).isEmpty = false)
    (fun es pfx => ∀ pv ∈ getAllKVEntries es pfx, (trimStr pv.2).isEmpty = false)
    (fun _ _ pv h => by simp [getAllKV] at h)
    (fun es pfx ih => ih) (fun _ pv h => by simp [getAllKVEntries] at h) ?_
  intro key v rest pfx ihv ihrest pv h
  cases v with
  | leaf s =>
    replace h : pv ∈ (if (trimStr s).isEmpty then []
        else [(fullKeyOf pfx key, s)]) ++ getAllKVEntries rest pfx := h
    rw [List.mem_append] at h
    rcases h with h | h
    · by_cases hs : (trimStr s).isEmpty
      · simp [hs] at h
      · rw [if_neg hs] at h
        simp only [List.mem_singleton] at h
        subst h
        simpa using hs
    · exact ihrest pv h
  | node es2 =>
    replace h : pv ∈ getAllKV (.node es2) (fullKeyOf pfx key)
        ++ getAllKVEntries rest pfx := h
    rw [List.mem_append] at h
    rcases h with h | h
    · exact ihv pv h
    · exact ihrest pv h

theorem getAllKVEntries_trim (es : List (List Char × Tree)) (pfx : List Char)
    (pv : List Char × List Char) (h : pv ∈ getAllKVEntries es pfx) :
    (trimStr pv.2).isEmpty = false :=
  getAllKV_trim (.node es) pfx pv h

theorem findMatchFrom_shift (key : List Char) (t : List Char) (i : Nat) :
    findMatchFrom key t i = (findMatchFrom key t 0).map (fun p => (p.1 + i, p.2)) := by
  induction t generalizing i with
  | nil => simp [findMatchFrom]
  | cons c rest ih =>
    simp only [findMatchFrom]
    cases hm : matchKeyAt key (c :: rest) with
    | some len => simp
    | none =>
      rw [ih (i + 1), ih 1]
      cases hfr : findMatchFrom key rest 0 with
      | none => simp
      | some p =>
        simp only [Option.map_some']
        refine congrArg some (Prod.ext ?_ rfl)
        simp only
        omega

theorem findMatchFrom_zero_spec (key : List Char) :
    ∀ (t : List Char) (j len : Nat), findMatchFrom key t 0 = some (j, len) →
      matchKeyAt key (t.drop j) = some len ∧
        ∀ d, d < j → matchKeyAt key (t.drop d) = none := by
  intro t
  induction t with
  | nil => intro j len h; simp [findMatchFrom] at h
  | cons c rest ih =>
    intro j len h
    simp only [findMatchFrom] at h
    cases hm : matchKeyAt key (c :: rest) with
    | some l =>
      rw [hm] at h
      cases h
      exact ⟨hm, fun d hd => absurd hd (Nat.not_lt_zero d)⟩
    | none =>
      rw [hm] at h
      rw [findMatchFrom_shift key rest 1] at h
      cases hfr : findMatchFrom key rest 0 with
      | none => rw [hfr] at h; cases h
      | some p =>
        rw [hfr] at h
        simp only [Option.map_some'] at h
        cases h
        obtain ⟨h1, h2⟩ := ih p.1 p.2 hfr
        refine ⟨by simpa using h1, ?_⟩
        intro d hd
        cases d with
        | zero => simpa using hm
        | succ d' =>
          have hd' : d' < p.1 := by omega
          simpa using h2 d' hd'

theorem findKeyRange_spec (text key : List Char) (r : Range)
    (h : findKeyRange text key = some r) :
    ∃ len, r.stop = r.start + len ∧
      matchKeyAt (lastSegment key) (text.drop r.start) = some len ∧
      ∀ d, d < r.start → matchKeyAt (lastSegment key) (text.drop d) = none := by
  unfold findKeyRange at h
  cases hf : findMatchFrom (lastSegment key) text 0 with
  | none => rw [hf] at h; cases h
  | some p =>
    rw [hf] at h
    obtain ⟨i, len⟩ := p
    cases h
    obtain ⟨h1, h2⟩ := findMatchFrom_zero_spec (lastSegment key) text i len hf
    exact ⟨len, rfl, h1, h2⟩

theorem stripLeading_append : ∀ (p t rest : List Char),
    stripLeading p t = some rest → t = p ++ rest := by
  intro p
  induction p with
  | nil => intro t rest h; cases h; rfl
  | cons a p' ih =>
    intro t rest h
    cases t with
    | nil => simp [stripLeading] at h
    | cons c cs =>
      simp only [stripLeading] at h
      split at h
      · rename_i hac
        subst hac
        rw [List.cons_append]
        exact congrArg (a :: ·) (ih cs rest h)
      · cases h

theorem wsColonLen_spec : ∀ (t : List Char) (n : Nat), wsColonLen t = some n →
    ∃ ws, (∀ c ∈ ws, isJsWs c = true) ∧ n = ws.length + 1 ∧
      t.take n = ws ++ [':'] := by
  intro t
  induction t with
  | nil => intro n h; simp [wsColonLen] at h
  | cons c rest ih =>
    intro n h
    simp only [wsColonLen] at h
    split at h
    · rename_i hc
      subst hc
      cases h
      exact ⟨[], by simp, rfl, by simp⟩
    · split at h
      · rename_i hc hws
        cases hm : wsColonLen rest with
        | none => rw [hm] at h; cases h
        | some m =>
          rw [hm] at h
          simp only [Option.map_some'] at h
          cases h
          obtain ⟨ws, hws1, hws2, hws3⟩ := ih m hm
          refine ⟨c :: ws, ?_, by simp [hws2], ?_⟩
          · intro x hx
            rcases List.mem_cons.1 hx with rfl | hx
            · exact hws
            · exact hws1 x hx
          · simp only [List.take_succ_cons, List.cons_append]
            rw [hws3]
      · cases h

theorem take_append_length (l₁ l₂ : List Char) (n : Nat) :
    (l₁ ++ l₂).take (l₁.length + n) = l₁ ++ l₂.take n := by
  induction l₁ with
  | nil => simp
  | cons a l ih =>
    simp only [List.cons_append, List.length_cons]
    rw [show l.length + 1 + n = (l.length + n) + 1 by omega]
    rw [List.take_succ_cons, ih]

theorem matchKeyAt_slice (key t : List Char) (len : Nat)
    (h : matchKeyAt key t = some len) :
    ∃ ws, (∀ c ∈ ws, isJsWs c = true) ∧
      len = key.length + 2 + (ws.length + 1) ∧
      t.take len = '"' :: (key ++ '"' :: (ws ++ [':'])) := by
  unfold matchKeyAt at h
  split at h
  · cases h
  · rename_i rest hs
    split at h
    · cases h
    · rename_i n hw
      cases h
      obtain ⟨ws, hws1, hws2, hws3⟩ := wsColonLen_spec rest n hw
      refine ⟨ws, hws1, by omega, ?_⟩
      have ht : t = ('"' :: key ++ ['"']) ++ rest := stripLeading_append _ t rest hs
      have hl : ('"' :: key ++ ['"']).length = key.length + 2 := by simp
      rw [ht, show key.length + 2 + n = ('"' :: key ++ ['"']).length + n by omega,
        take_append_length, hws3]
      simp

theorem keyOk_spec (s : List Char) (h : keyOk s = true) : s ≠ [] ∧ '.' ∉ s := by
  unfold keyOk at h
  rw [Bool.and_eq_true] at h
  obtain ⟨h1, h2⟩ := h
  constructor
  · intro hnil
    subst hnil
    simp at h1
  · intro hmem
    rw [Bool.not_eq_true'] at h2
    have hcontains : s.contains '.' = true := by
      simpa [List.contains] using List.elem_iff.2 hmem
    rw [h2] at hcontains
    cases hcontains

theorem entriesOk_cons (key : List Char) (v : Tree) (rest : List (List Char × Tree))
    (h : entriesOk ((key, v) :: rest) = true) :
    keyOk key = true ∧ key ∉ rest.map Prod.fst ∧ treeOk v = true ∧
      entriesOk rest = true := by
  have h' : (keyOk key && !(rest.map Prod.fst).contains key && treeOk v &&
      entriesOk rest) = true := h
  simp only [Bool.and_eq_true] at h'
  obtain ⟨⟨⟨h1, h2⟩, h3⟩, h4⟩ := h'
  refine ⟨h1, ?_, h3, h4⟩
  intro hmem
  have hc : (rest.map Prod.fst).contains key = true := by
    simpa [List.contains] using List.elem_iff.2 hmem
  rw [Bool.not_eq_true'] at h2
  rw [h2] at hc
  cases hc

theorem hasKeyParts_node_parts (rest : List (List Char × Tree)) (p : List Char)
    (ps : List (List Char)) (h : hasKeyParts (.node rest) (p :: ps) = true) :
    ∃ t', alookup rest p = some t' ∧ hasKeyParts t' ps = true := by
  revert h
  show (match alookup rest p with
        | some t => hasKeyParts t ps
        | none => false) = true → _
  cases hal : alookup rest p with
  | none => intro hh; cases hh
  | some t' => intro hh; exact ⟨t', rfl, hh⟩

theorem hasKeyParts_cons_of_notmem (key : List Char) (v : Tree)
    (rest : List (List Char × Tree)) (hnotmem : key ∉ rest.map Prod.fst)
    (segs : List (List Char)) (hne : segs ≠ [])
    (h : hasKeyParts (.node rest) segs = true) :
    hasKeyParts (.node ((key, v) :: rest)) segs = true := by
  obtain ⟨p, ps, rfl⟩ := List.exists_cons_of_ne_nil hne
  obtain ⟨t', hal, _⟩ := hasKeyParts_node_parts rest p ps h
  have hne' : ¬key = p := fun he => hnotmem (he ▸ alookup_mem_keys hal)
  have hrw : hasKeyParts (Tree.node ((key, v) :: rest)) (p :: ps) =
      hasKeyParts (Tree.node rest) (p :: ps) := by
    show (match alookup ((key, v) :: rest) p with
          | some t => hasKeyParts t ps
          | none => false) =
      (match alookup rest p with
       | some t => hasKeyParts t ps
       | none => false)
    rw [show alookup ((key, v) :: rest) p = alookup rest p by simp [alookup, hne']]
  rw [hrw]
  exact h

theorem fullKeyOf_fullKeyOf (pfx key : List Char) (segs2 : List (List Char))
    (hkey : key ≠ []) (hs2 : segs2 ≠ []) :
    fullKeyOf (fullKeyOf pfx key) (joinDot segs2) =
      fullKeyOf pfx (joinDot (key :: segs2)) := by
  rw [joinDot_cons key segs2 hs2]
  by_cases hp : pfx = []
  · subst hp
    simp [fullKeyOf, hkey]
  · have hne : pfx ++ '.' :: key ≠ [] := by simp
    simp [fullKeyOf, hp, hne, List.append_assoc]

theorem getAllKeys_roundTrip_aux : ∀ (t : Tree) (pfx : List Char),
    treeOk t = true → ∀ k ∈ getAllKeys t pfx,
      ∃ segs, segs ≠ [] ∧ (∀ s ∈ segs, keyOk s = true) ∧
        k = fullKeyOf pfx (joinDot segs) ∧ hasKeyParts t segs = true := by
  refine getAllKeys.induct
    (fun t pfx => treeOk t = true → ∀ k ∈ getAllKeys t pfx,
      ∃ segs, segs ≠ [] ∧ (∀ s ∈ segs, keyOk s = true) ∧
        k = fullKeyOf pfx (joinDot segs) ∧ hasKeyParts t segs = true)
    (fun es pfx => entriesOk es = true → ∀ k ∈ getAllKeysEntries es pfx,
      ∃ segs, segs ≠ [] ∧ (∀ s ∈ segs, keyOk s = true) ∧
        k = fullKeyOf pfx (joinDot segs) ∧ hasKeyParts (Tree.node es) segs = true)
    ?_ ?_ ?_ ?_
  · intro s pfx _ k hk
    simp [getAllKeys] at hk
  · intro es pfx ih hok k hk
    exact ih hok k hk
  · intro pfx _ k hk
    simp [getAllKeysEntries] at hk
  · intro key v rest pfx ihv ihrest hok k hk
    obtain ⟨hkey, hnotmem, htv, hrest⟩ := entriesOk_cons key v rest hok
    cases v with
    | leaf s =>
      replace hk : k ∈ (if (trimStr s).isEmpty then []
          else [fullKeyOf pfx key]) ++ getAllKeysEntries rest pfx := hk
      rcases List.mem_append.1 hk with hk | hk
      · by_cases hs : (trimStr s).isEmpty
        · simp [hs] at hk
        · rw [if_neg hs] at hk
          simp only [List.mem_singleton] at hk
          subst hk
          refine ⟨[key], by simp, ?_, by simp [joinDot], ?_⟩
          · intro u hu
            rcases List.mem_cons.1 hu with rfl | hu
            · exact hkey
            · simp at hu
          · show (match alookup ((key, Tree.leaf s) :: rest) key with
                  | some t => hasKeyParts t []
                  | none => false) = true
            rw [show alookup ((key, Tree.leaf s) :: rest) key = some (Tree.leaf s)
              by simp [alookup]]
            show (!(trimStr s).isEmpty) = true
            simpa using hs
      · obtain ⟨segs, h1, h2, h3, h4⟩ := ihrest hrest k hk
        exact ⟨segs, h1, h2, h3,
          hasKeyParts_cons_of_notmem key (Tree.leaf s) rest hnotmem segs h1 h4⟩
    | node es2 =>
      replace hk : k ∈ getAllKeys (.node es2) (fullKeyOf pfx key)
          ++ getAllKeysEntries rest pfx := hk
      rcases List.mem_append.1 hk with hk | hk
      · obtain ⟨segs2, h1, h2, h3, h4⟩ := ihv htv k hk
        refine ⟨key :: segs2, by simp, ?_, ?_, ?_⟩
        · intro u hu
          rcases List.mem_cons.1 hu with rfl | hu
          · exact hkey
          · exact h2 u hu
        · rw [h3, fullKeyOf_fullKeyOf pfx key segs2 (keyOk_spec key hkey).1 h1]
        · show (match alookup ((key, Tree.node es2) :: rest) key with
                | some t => hasKeyParts t segs2
                | none => false) = true
          rw [show alookup ((key, Tree.node es2) :: rest) key = some (Tree.node es2)
            by simp [alookup]]
          exact h4
      · obtain ⟨segs, h1, h2, h3, h4⟩ := ihrest hrest k hk
        exact ⟨segs, h1, h2, h3,
          hasKeyParts_cons_of_notmem key (Tree.node es2) rest hnotmem segs h1 h4⟩

theorem getAllKeys_hasKey (t : Tree) (hok : treeOk t = true) (k : List Char)
    (hk : k ∈ getAllKeys t []) : hasKey t k = true := by
  obtain ⟨segs, h1, h2, h3, h4⟩ := getAllKeys_roundTrip_aux t [] hok k hk
  have hdot : ∀ s ∈ segs, '.' ∉ s := fun s hs => (keyOk_spec s (h2 s hs)).2
  unfold hasKey
  rw [h3]
  rw [show fullKeyOf [] (joinDot segs) = joinDot segs from by simp [fullKeyOf]]
  rw [splitOnDot_joinDot segs h1 hdot]
  exact h4

theorem filter_ne_nil_iff {α : Type} (p : α → Bool) (l : List α) :
    l.filter p ≠ [] ↔ ∃ a ∈ l, p a = true := by
  rw [Ne, List.eq_nil_iff_forall_not_mem]
  push_neg
  constructor
  · rintro ⟨x, hx⟩
    have hm := List.mem_filter.1 hx
    exact ⟨x, hm.1, hm.2⟩
  · rintro ⟨a, ha, hp⟩
    exact ⟨a, List.mem_filter.2 ⟨ha, hp⟩⟩

theorem alookup_of_mem_keys {α : Type} (l : List (List Char × α)) (k : List Char)
    (h : k ∈ l.map Prod.fst) : ∃ v, alookup l k = some v := by
  induction l with
  | nil => simp at h
  | cons e rest ih =>
    obtain ⟨ek, ev⟩ := e
    by_cases hek : ek = k
    · exact ⟨ev, by simp [alookup, hek]⟩
    · have h' : k ∈ rest.map Prod.fst := by
        rcases List.mem_cons.1 h with h | h
        · exact absurd h.symm hek
        · exact h
      obtain ⟨v, hv⟩ := ih h'
      exact ⟨v, by simp [alookup, hek, hv]⟩

theorem hasKey_false_of_walk_blank (t : Tree) (k : List Char) (s : List Char)
    (hw : walkParts t (splitOnDot k) = some (.leaf s)) (hs : trimStr s = []) :
    hasKey t k = false := by
  unfold hasKey
  rw [hasKeyParts_eq_walkParts, hw]
  simp [hs]

/-! Claim theorems. -/

/-- Claim C1: `findMissingTranslations` takes no current locale, so its result
is the same regardless of which locale is current.  Its domain is exactly the
keys of the union of all locales' flattened key lists for which at least one
language lacks the key per `hasKey`; each such key is mapped to exactly the
list of languages whose translation lacks it; in particular a key flattened
from locale A and absent from locale B per `hasKey` is flagged with B, and a
key present (per `hasKey`) in every locale never appears in the result. -/
theorem c1_findMissingTranslations_characterization (family : Family) (k : List Char) :
    ((∃ ml, alookup (findMissingTranslations family) k = some ml) ↔
      ((∃ lt ∈ family, k ∈ getAllKeys lt.2 []) ∧
        ∃ lang ∈ family.map Prod.fst,
          hasKey ((alookup family lang).getD emptyTree) k = false)) ∧
    (∀ ml, alookup (findMissingTranslations family) k = some ml →
      ml = (family.map Prod.fst).filter
        (fun lang => !hasKey ((alookup family lang).getD emptyTree) k)) ∧
    (∀ A B Ta Tb, alookup family A = some Ta → alookup family B = some Tb →
      k ∈ getAllKeys Ta [] → hasKey Tb k = false →
      ∃ ml, alookup (findMissingTranslations family) k = some ml ∧ B ∈ ml) ∧
    ((∀ lt ∈ family, hasKey lt.2 k = true) →
      alookup (findMissingTranslations family) k = none) := by
  have hiff : (missingLangsFor family k ≠ []) ↔
      ∃ lang ∈ family.map Prod.fst,
        hasKey ((alookup family lang).getD emptyTree) k = false := by
    unfold missingLangsFor
    rw [filter_ne_nil_iff]
    constructor
    · rintro ⟨lang, hm, hp⟩
      exact ⟨lang, hm, by simpa using hp⟩
    · rintro ⟨lang, hm, hp⟩
      exact ⟨lang, hm, by simp [hp]⟩
  refine ⟨?_, ?_, ?_, ?_⟩
  · rw [alookup_findMissing]
    by_cases hc : k ∈ collectAllKeys family ∧ missingLangsFor family k ≠ []
    · rw [if_pos hc]
      constructor
      · intro _
        exact ⟨(mem_collectAllKeys family k).1 hc.1, hiff.1 hc.2⟩
      · intro _
        exact ⟨_, rfl⟩
    · rw [if_neg hc]
      constructor
      · rintro ⟨ml, hml⟩
        cases hml
      · rintro ⟨hmem, hex⟩
        exact absurd ⟨(mem_collectAllKeys family k).2 hmem, hiff.2 hex⟩ hc
  · intro ml h
    rw [alookup_findMissing] at h
    split at h
    · cases h
      rfl
    · cases h
  · intro A B Ta Tb hA hB hkTa hkTb
    have hmemB : B ∈ family.map Prod.fst := alookup_mem_keys hB
    have hpredB : (!hasKey ((alookup family B).getD emptyTree) k) = true := by
      rw [hB]
      simp [hkTb]
    have hBml : B ∈ missingLangsFor family k := List.mem_filter.2 ⟨hmemB, hpredB⟩
    have hne : missingLangsFor family k ≠ [] := List.ne_nil_of_mem hBml
    have hkc : k ∈ collectAllKeys family :=
      (mem_collectAllKeys family k).2 ⟨(A, Ta), alookup_mem hA, hkTa⟩
    rw [alookup_findMissing, if_pos ⟨hkc, hne⟩]
    exact ⟨_, rfl, hBml⟩
  · intro hall
    have hml : missingLangsFor family k = [] := by
      unfold missingLangsFor
      rw [List.filter_eq_nil_iff]
      intro lang hlang
      obtain ⟨v, hv⟩ := alookup_of_mem_keys family lang hlang
      have hmem : (lang, v) ∈ family := alookup_mem hv
      have hkv := hall (lang, v) hmem
      simp [hv, hkv]
    rw [alookup_findMissing, if_neg (by simp [hml])]

/-- Witness for C1: in spec scenario 1 (`en` has `greeting` and
`nested.message`, `de` only `greeting`), key `nested.message` is flagged with
`de`. -/
theorem c1_witness :
    ∃ ml, alookup (findMissingTranslations scenario1Family)
      "nested.message".data = some ml ∧ "de".data ∈ ml :=
  (c1_findMissingTranslations_characterization scenario1Family
      "nested.message".data).2.2.1
    "en".data "de".data enTree deTree rfl rfl (by decide) (by decide)

/-- Counterexample to C2: a locale whose file fails to parse is not excluded
from the family.  With `en.json` parsing to `{"a":"x"}` and `de.json` failing
to parse, `de` is loaded (as `{}`), participates in the comparison, and is
reported missing for key `a` — i.e. for every key of the union — contradicting
the claim that it does not appear as a missing locale for every key. -/
theorem c2_counterexample :
    (loadTranslations parsedFiles).map Prod.fst = ["en".data, "de".data] ∧
    alookup (loadTranslations parsedFiles) "de".data = some emptyTree ∧
    findMissingTranslations (loadTranslations parsedFiles) =
      [("a".data, ["de".data])] :=
  ⟨rfl, rfl, rfl⟩

/-- Claim C2 (amended): when a locale's translation file fails to parse, the
locale is NOT excluded: every `.json` file still contributes its locale to the
family, a failed parse loads as the empty translation object `{}`, and such a
locale is reported as missing for every key of the union; the pass itself does
not abort and all other locales are still loaded and compared. -/
theorem c2_amended_parse_failure_included :
    (∀ entries : List (List Char × Except (List Char) Tree),
      (loadTranslations entries).map Prod.fst =
        (entries.filter (fun e => endsWithJson e.1)).map
          (fun e => stripJsonSuffix e.1)) ∧
    (∀ err : List Char, loadSingleTranslation (.error err) = emptyTree) ∧
    (∀ (family : Family) (lang k : List Char),
      alookup family lang = some emptyTree → k ∈ collectAllKeys family →
      ∃ ml, alookup (findMissingTranslations family) k = some ml ∧ lang ∈ ml) := by
  refine ⟨?_, fun _ => rfl, ?_⟩
  · intro entries
    unfold loadTranslations
    rw [List.map_map]
    rfl
  · intro family lang k hl hk
    have hmem : lang ∈ family.map Prod.fst := alookup_mem_keys hl
    have hpred : (!hasKey ((alookup family lang).getD emptyTree) k) = true := by
      rw [hl]
      simp [hasKey_emptyTree]
    have hml : lang ∈ missingLangsFor family k := List.mem_filter.2 ⟨hmem, hpred⟩
    have hne : missingLangsFor family k ≠ [] := List.ne_nil_of_mem hml
    rw [alookup_findMissing, if_pos ⟨hk, hne⟩]
    exact ⟨_, rfl, hml⟩

/-- Witness for the amended C2 on the concrete failed-parse family. -/
theorem c2_amended_witness :
    ∃ ml, alookup (findMissingTranslations (loadTranslations parsedFiles))
      "a".data = some ml ∧ "de".data ∈ ml :=
  c2_amended_parse_failure_included.2.2 (loadTranslations parsedFiles)
    "de".data "a".data rfl (by decide)

/-- Claim C3: flattening never emits a key whose leaf value trims to the empty
string (every emitted key carries a non-trim-empty value, and the emitted keys
are exactly the value-annotated ones), `hasKey` is false for a key resolving
to a trim-empty leaf, and `{"a": ""}` flattens to the empty key list. -/
theorem c3_empty_string_leaf_absent :
    (∀ (t : Tree) (pfx : List Char),
      getAllKeys t pfx = (getAllKV t pfx).map Prod.fst) ∧
    (∀ (t : Tree) (pfx : List Char) (pv : List Char × List Char),
      pv ∈ getAllKV t pfx → (trimStr pv.2).isEmpty = false) ∧
    (∀ (t : Tree) (k s : List Char),
      walkParts t (splitOnDot k) = some (.leaf s) → trimStr s = [] →
      hasKey t k = false) ∧
    getAllKeys emptyLeafTree [] = [] :=
  ⟨getAllKeys_eq_KV, getAllKV_trim, hasKey_false_of_walk_blank, rfl⟩

/-- Witness for C3: `{"a": " "}` has a whitespace-only leaf at `a`, and
`hasKey` answers false there. -/
theorem c3_witness :
    walkParts blankLeafTree (splitOnDot "a".data) = some (.leaf " ".data) ∧
    trimStr " ".data = [] ∧ hasKey blankLeafTree "a".data = false :=
  ⟨rfl, rfl, c3_empty_string_leaf_absent.2.2.1 blankLeafTree "a".data " ".data rfl rfl⟩

/-- Claim C4: in auto mode any subdirectory forces folder mode (even with
loose `.json` files present), and the explicit `single-file` / `folder`
overrides decide the result for every possible directory listing, readable or
not. -/
theorem c4_mode_resolution :
    (∀ entries : List DirEntry, entries.any (·.isDir) = true →
      isSingleFileMode "auto".data (some entries) = false) ∧
    (∀ listing : Option (List DirEntry),
      isSingleFileMode "single-file".data listing = true) ∧
    (∀ listing : Option (List DirEntry),
      isSingleFileMode "folder".data listing = false) := by
  refine ⟨?_, ?_, ?_⟩
  · intro entries h
    unfold isSingleFileMode
    rw [if_neg (by decide), if_neg (by decide)]
    simp [h]
  · intro listing
    unfold isSingleFileMode
    rw [if_pos rfl]
  · intro listing
    unfold isSingleFileMode
    rw [if_neg (by decide), if_pos rfl]

/-- Witness for C4: a root with an `en` subdirectory and a loose `extra.json`
resolves to folder mode under auto. -/
theorem c4_witness :
    mixedListing.any (·.isDir) = true ∧
    isSingleFileMode "auto".data (some mixedListing) = false :=
  ⟨by decide, c4_mode_resolution.1 mixedListing (by decide)⟩

/-- Claim C5 (code bug): in auto mode with no subdirectory, the resolver
returns whether a `.json` file exists — so with no `.json` file it returns
false, i.e. folder mode, although the branch's own log message says
"no JSON files, defaulting to single-file mode" and the claim (with the spec)
says single-file mode is the fallback.  With `.json` files present it does
return single-file mode. -/
theorem c5_no_json_auto_yields_folder_mode :
    isSingleFileMode "auto".data (some nonJsonListing) = false ∧
    isSingleFileMode "auto".data (some jsonOnlyListing) = true :=
  ⟨rfl, rfl⟩

/-- Claim C6: the key locator depends only on the dotted path's last segment —
two paths with the same last segment always locate to the same range — and a
returned range is the first textual occurrence of that segment quoted and
followed by (whitespace and) a colon: the pattern matches at the range's start
and at no earlier position.  Concretely, on a document with `title` keys under
parents `b` then `a`, `a.title` anchors to the first `title` (the one under
`b`). -/
theorem c6_locator_last_segment_first_occurrence :
    (∀ (text p1 p2 : List Char), lastSegment p1 = lastSegment p2 →
      findKeyRange text p1 = findKeyRange text p2) ∧
    (∀ (text key : List Char) (r : Range), findKeyRange text key = some r →
      matchKeyAt (lastSegment key) (text.drop r.start) = some (r.stop - r.start) ∧
      ∀ d, d < r.start → matchKeyAt (lastSegment key) (text.drop d) = none) ∧
    (findKeyRange twoTitlesDoc "a.title".data = some ⟨6, 14⟩ ∧
     findKeyRange twoTitlesDoc "b.title".data = some ⟨6, 14⟩ ∧
     findKeyRange twoTitlesDoc "title".data = some ⟨6, 14⟩) := by
  refine ⟨?_, ?_, rfl, rfl, rfl⟩
  · intro text p1 p2 h
    unfold findKeyRange
    rw [h]
  · intro text key r h
    obtain ⟨len, hlen, h1, h2⟩ := findKeyRange_spec text key r h
    refine ⟨?_, h2⟩
    rw [show r.stop - r.start = len by omega]
    exact h1

/-- Witness for C6: `a.title` and `b.title` share the last segment and locate
identically in the two-titles document. -/
theorem c6_witness :
    lastSegment "a.title".data = lastSegment "b.title".data ∧
    findKeyRange twoTitlesDoc "a.title".data =
      findKeyRange twoTitlesDoc "b.title".data :=
  ⟨by decide, c6_locator_last_segment_first_occurrence.1 twoTitlesDoc
    "a.title".data "b.title".data (by decide)⟩

/-- Counterexample to C7: on the document `{"a": "x"}` the locator returns the
range [1, 5) — from the opening quote through the colon — not the bare-name
range [2, 3) that the claim (range starts after the opening quote and ends
before the closing quote) predicts. -/
theorem c7_counterexample :
    findKeyRange singleKeyDoc "a".data = some ⟨1, 5⟩ ∧
    some (⟨1, 5⟩ : Range) ≠ some (⟨2, 3⟩ : Range) :=
  ⟨rfl, by decide⟩

/-- Claim C7 (amended): whenever `findKeyRange` finds a match, the returned
range starts at the opening quote of the key token and ends immediately after
the colon separator: the covered slice of the document is exactly the quoted
last segment, a possibly-empty whitespace run, and the colon (the
`findKeysInDocument` locator of src/extension.ts, by contrast, does cover just
the bare key name). -/
theorem c7_amended_range_covers_quoted_key_and_colon :
    ∀ (text key : List Char) (r : Range), findKeyRange text key = some r →
      ∃ ws, (∀ c ∈ ws, isJsWs c = true) ∧
        r.stop = r.start + ((lastSegment key).length + 2 + (ws.length + 1)) ∧
        (text.drop r.start).take (r.stop - r.start) =
          '"' :: (lastSegment key ++ '"' :: (ws ++ [':'])) := by
  intro text key r h
  obtain ⟨len, hlen, h1, _⟩ := findKeyRange_spec text key r h
  obtain ⟨ws, hws1, hws2, hws3⟩ := matchKeyAt_slice (lastSegment key)
    (text.drop r.start) len h1
  refine ⟨ws, hws1, by omega, ?_⟩
  rw [show r.stop - r.start = len by omega]
  exact hws3

/-- Witness for the amended C7 on `{"a": "x"}`. -/
theorem c7_amended_witness :
    ∃ ws, (∀ c ∈ ws, isJsWs c = true) ∧
      (Range.mk 1 5).stop = (Range.mk 1 5).start +
        ((lastSegment "a".data).length + 2 + (ws.length + 1)) ∧
      (singleKeyDoc.drop (Range.mk 1 5).start).take
          ((Range.mk 1 5).stop - (Range.mk 1 5).start) =
        '"' :: (lastSegment "a".data ++ '"' :: (ws ++ [':'])) :=
  c7_amended_range_covers_quoted_key_and_colon singleKeyDoc "a".data ⟨1, 5⟩ rfl

/-- Claim C8: when no occurrence of the key's quoted last segment followed by
a colon exists, `findKeyRange` returns `none` (not an error), the report
builder emits an annotation only for entries whose key was located (each
emitted diagnostic carries a found range and the corresponding message), and an
unlocatable entry is silently skipped while the rest of the entries are still
processed. -/
theorem c8_unlocatable_key_dropped :
    (∀ (text key : List Char),
      (∀ d, matchKeyAt (lastSegment key) (text.drop d) = none) →
      findKeyRange text key = none) ∧
    (∀ (text : List Char) (missing : List (List Char × List (List Char)))
      (d : Diagnostic), d ∈ addMissingTranslationsDiagnostics text missing →
      ∃ kv ∈ missing, findKeyRange text kv.1 = some d.range ∧
        d.message = createMissingTranslationMessage kv.1 kv.2) ∧
    (∀ (text : List Char) (kv : List Char × List (List Char))
      (rest : List (List Char × List (List Char))),
      findKeyRange text kv.1 = none →
      addMissingTranslationsDiagnostics text (kv :: rest) =
        addMissingTranslationsDiagnostics text rest) := by
  refine ⟨?_, ?_, ?_⟩
  · intro text key h
    cases hf : findKeyRange text key with
    | none => rfl
    | some r =>
      obtain ⟨len, _, h1, _⟩ := findKeyRange_spec text key r hf
      rw [h r.start] at h1
      cases h1
  · intro text missing d hd
    unfold addMissingTranslationsDiagnostics at hd
    rw [List.mem_filterMap] at hd
    obtain ⟨kv, hkv, hfn⟩ := hd
    revert hfn
    cases hr : findKeyRange text kv.1 with
    | none => intro hfn; cases hfn
    | some range =>
      intro hfn
      cases hfn
      exact ⟨kv, hkv, hr, rfl⟩
  · intro text kv rest h
    unfold addMissingTranslationsDiagnostics
    rw [List.filterMap_cons_none (by rw [h])]

/-- Witness for C8: key `zzz` has no occurrence in `{"a": "x"}`, so its entry
contributes nothing while the entry for `a` is still processed. -/
theorem c8_witness :
    findKeyRange singleKeyDoc "zzz".data = none ∧
    addMissingTranslationsDiagnostics singleKeyDoc
      [("zzz".data, ["de".data]), ("a".data, ["de".data])] =
      addMissingTranslationsDiagnostics singleKeyDoc [("a".data, ["de".data])] :=
  ⟨rfl, c8_unlocatable_key_dropped.2.2 singleKeyDoc ("zzz".data, ["de".data])
    [("a".data, ["de".data])] rfl⟩

/-- Counterexample to C9: the tree `{"a.b": "x"}` flattens to the single path
`a.b`, but splitting `a.b` on `.` and walking the tree fails (`hasKey` is
false), so the flatten-then-resolve round trip does not hold for every tree. -/
theorem c9_counterexample :
    getAllKeys dottedKeyTree [] = ["a.b".data] ∧
    hasKey dottedKeyTree "a.b".data = false :=
  ⟨rfl, rfl⟩

/-- Claim C9 (amended): for every translation tree whose key segments are
non-empty, dot-free and unique within each node (the spec's MessageTree
invariant plus dot-free segments, which the counterexample `{"a.b": "x"}`
forces), every path produced by `getAllKeys`, when split on `.` and walked
through the tree, resolves to a non-blank string leaf: `hasKey` is true on it. -/
theorem c9_amended_roundtrip (t : Tree) (hok : treeOk t = true) :
    ∀ k ∈ getAllKeys t [], hasKey t k = true :=
  fun k hk => getAllKeys_hasKey t hok k hk

/-- Witness for the amended C9 on `{"a": {"b": "x"}}`. -/
theorem c9_amended_witness :
    treeOk nestedTree = true ∧ hasKey nestedTree "a.b".data = true :=
  ⟨rfl, c9_amended_roundtrip nestedTree rfl "a.b".data (by decide)⟩

/-- Claim C10: every diagnostic built by the `updateDiagnostics` loop comes
from a located key that is in the missing map with the current language not
among its missing languages; and for a family whose `lang` entry lacks a key
per `hasKey` (for example because its value there is the empty string), the
loop body emits no diagnostic for that key in `lang`'s document. -/
theorem c10_updateDiagnostics_excludes_current_lang :
    (∀ (lang : List Char) (kps : List (List Char × Range))
      (missing : List (List Char × List (List Char))) (d : Diagnostic),
      d ∈ updateDiagnosticsCore lang kps missing →
      ∃ key range ml, (key, range) ∈ kps ∧ alookup missing key = some ml ∧
        lang ∉ ml ∧ d = ⟨range, missingInMessage key ml⟩) ∧
    (∀ (family : Family) (lang : List Char) (T : Tree) (k : List Char),
      alookup family lang = some T → hasKey T k = false →
      ∀ range, diagForKeyPosition lang (findMissingTranslations family)
        (k, range) = none) := by
  constructor
  · intro lang kps missing d hd
    unfold updateDiagnosticsCore at hd
    rw [List.mem_filterMap] at hd
    obtain ⟨kp, hkp, hfn⟩ := hd
    obtain ⟨key, range⟩ := kp
    unfold diagForKeyPosition at hfn
    revert hfn
    cases hml : alookup missing key with
    | none => intro hfn; cases hfn
    | some ml =>
      intro hfn
      replace hfn : (if lang ∈ ml then none
          else some ⟨range, missingInMessage key ml⟩ : Option Diagnostic) =
        some d := hfn
      by_cases hl : lang ∈ ml
      · rw [if_pos hl] at hfn
        cases hfn
      · rw [if_neg hl] at hfn
        cases hfn
        exact ⟨key, range, ml, hkp, hml, hl, rfl⟩
  · intro family lang T k hT hfalse range
    unfold diagForKeyPosition
    cases hml : alookup (findMissingTranslations family) k with
    | none => rfl
    | some ml =>
      have hmlv : ml = missingLangsFor family k := by
        rw [alookup_findMissing] at hml
        split at hml
        · cases hml
          rfl
        · cases hml
      have hmem : lang ∈ family.map Prod.fst := alookup_mem_keys hT
      have hpred : (!hasKey ((alookup family lang).getD emptyTree) k) = true := by
        rw [hT]
        simp [hfalse]
      have hin : lang ∈ ml := hmlv ▸ List.mem_filter.2 ⟨hmem, hpred⟩
      show (if lang ∈ ml then none
            else some ⟨range, missingInMessage k ml⟩ : Option Diagnostic) = none
      rw [if_pos hin]

/-- Witness for C10: in a family where `de` maps key `a` to the empty string,
the loop body emits nothing for `a` in the `de` document. -/
theorem c10_witness :
    diagForKeyPosition "de".data (findMissingTranslations blankValueFamily)
      ("a".data, ⟨2, 3⟩) = none :=
  c10_updateDiagnostics_excludes_current_lang.2 blankValueFamily "de".data
    emptyLeafTree "a".data rfl rfl ⟨2, 3⟩

end NextIntl
